import Mathlib

/-!
Verification of the ordering/reconciliation core of the orderable to-do list
(`src/todo/TodoList.js`).

The development shallowly embeds the component's state and handlers:

* `OrderEntry`, `Item`, `FilterCriteria` mirror the JSDoc data model;
* JS array helpers (`findIndex` returning `-1`, `Array.prototype.slice` with
  negative-index clamping, element access) are modelled explicitly;
* `initialOrdering`, `reconcile`, `setDraggable`, `getOrder`, `setOrder`
  embed the `useState` initializer, the reconciliation `useLayoutEffect`,
  `setOrderableField('draggable')`, `getOrder` and `setOrder`;
* `SectionState` plus the `onDrag*` handlers and `dragStep` embed the
  drag-session event protocol of `TodoSection`;
* `labelPass`, `searchPass`, `filtered`, `allStatus` embed the `filtered`
  and `allStatus` memos of `TodoList`.
-/

/-- An entry of the order store: `{ key, draggable }` as built by
`TodoSection` (`{ key: item.key, draggable: false }`). -/
structure OrderEntry where
  key : Int
  draggable : Bool
deriving DecidableEq

/-- The label color tags (`'red'|'green'|'blue'|'yellow'`). -/
inductive Label where
  | red
  | green
  | blue
  | yellow
deriving DecidableEq

/-- An item, per the JSDoc typedef
`{key, order, description, status, labels}`; the `order` field is unused by
the ordering core and omitted.  Descriptions are modelled as character
lists so that `toLowerCase`/`includes` can be embedded directly. -/
structure Item where
  key : Int
  description : List Char
  status : Bool
  labels : List Label
deriving DecidableEq

/-- Filter criteria, per the JSDoc typedef `{words, label}`. -/
structure FilterCriteria where
  words : List (List Char)
  label : Option Label
deriving DecidableEq

/-- JS `Array.prototype.findIndex`: index of the first match, `-1` when no
element matches.  (`List.findIdx` returns the length in that case.) -/
def findIndexJs (p : α → Bool) (l : List α) : Int :=
  let i := l.findIdx p
  if i < l.length then Int.ofNat i else -1

/-- Clamp one boundary argument of JS `Array.prototype.slice` for an array
of length `n`: negative values count from the end, and everything is
clamped into `[0, n]`. -/
def jsClamp (n : Nat) (i : Int) : Nat :=
  if i < 0 then (Int.ofNat n + i).toNat else min i.toNat n

/-- JS `Array.prototype.slice(start, stop)`. -/
def jsSlice (l : List α) (start stop : Int) : List α :=
  (l.take (jsClamp l.length stop)).drop (jsClamp l.length start)

/-- JS `Array.prototype.slice(start)` (one-argument form). -/
def jsSliceFrom (l : List α) (start : Int) : List α :=
  jsSlice l start (Int.ofNat l.length)

/-- JS element access `l[i]` spliced into an array literal, as a
zero-or-one element list.  For an in-bounds index this is exactly the JS
behavior; for an out-of-bounds index JS would produce `[undefined]`
(a one-element array holding `undefined`), which has no counterpart in
`List OrderEntry` — every theorem below that touches this helper carries
the in-bounds facts under which the embedding is exact. -/
def jsElemList (l : List α) (i : Int) : List α :=
  if 0 ≤ i then (l.get? i.toNat).toList else []

/-- The `useState` initializer of `TodoSection`: seed from the cookie value
when one is present (JS truthiness: any array, even empty, is truthy),
otherwise from the arrival order of `props.list`; `draggable` is `false`
either way. -/
def initialOrdering (persisted : Option (List Int)) (list : List Item) : List OrderEntry :=
  match persisted with
  | some ks => ks.map (fun key => { key := key, draggable := false })
  | none => list.map (fun item => { key := item.key, draggable := false })

/-- The reconciliation `useLayoutEffect` of `TodoSection`:
`ordering.concat(props.list.filter((item) => ordering.every((ord) => item.key !== ord.key)).map(...))`. -/
def reconcile (ordering : List OrderEntry) (list : List Item) : List OrderEntry :=
  ordering ++
    (list.filter (fun item => ordering.all (fun ord => item.key != ord.key))).map
      (fun item => { key := item.key, draggable := false })

/-- `setOrderableField('draggable')` of `TodoSection`: find the entry by
key, copy the array, and replace that slot with an updated copy.  When the
key is absent, JS `findIndex` yields `-1` and `newOrdering[-1] = ...`
stores a non-index property on the array object, leaving the element
sequence unchanged — hence the `none` branch returns the list as is.
(The JS function is generic in the field name; the component only ever
instantiates it at `'draggable'`.) -/
def setDraggable (ordering : List OrderEntry) (key : Int) (value : Bool) : List OrderEntry :=
  let index := ordering.findIdx (fun ord => ord.key == key)
  match ordering.get? index with
  | some ord => ordering.set index { ord with draggable := value }
  | none => ordering

/-- `getOrder` of `TodoSection`: `ordering.findIndex((ord) => ord.key === key)`. -/
def getOrder (ordering : List OrderEntry) (key : Int) : Int :=
  findIndexJs (fun ord => ord.key == key) ordering

/-- `setOrder` of `TodoSection`.  The JS reads `oldIndex` from the render's
`ordering` and splices the functional-update argument; in the synchronous,
single-threaded model both are the same list. -/
def setOrder (ordering : List OrderEntry) (key : Int) (newIndex : Int) : List OrderEntry :=
  let oldIndex := getOrder ordering key
  if newIndex < oldIndex then
    jsSlice ordering 0 newIndex ++ jsElemList ordering oldIndex ++
      jsSlice ordering newIndex oldIndex ++ jsSliceFrom ordering (oldIndex + 1)
  else if oldIndex < newIndex then
    jsSlice ordering 0 oldIndex ++ jsSlice ordering (oldIndex + 1) (newIndex + 1) ++
      jsElemList ordering oldIndex ++ jsSliceFrom ordering (newIndex + 1)
  else
    ordering

/-- The drag-relevant state of one `TodoSection`: the `ordering` and
`dragging` `useState` cells. -/
structure SectionState where
  ordering : List OrderEntry
  dragging : Option Int
deriving DecidableEq

/-- `onDragDown` handler (`TodoItem` row): `setDraggable(item.key, true)`. -/
def onDragDownH (s : SectionState) (key : Int) : SectionState :=
  { s with ordering := setDraggable s.ordering key true }

/-- `onDragUp` handler: `if (!dragging) setDraggable(item.key, false)`.
JS truthiness of `dragging`: `null` is falsy, and so is the key `0`. -/
def onDragUpH (s : SectionState) (key : Int) : SectionState :=
  match s.dragging with
  | some d => if d != 0 then s else { s with ordering := setDraggable s.ordering key false }
  | none => { s with ordering := setDraggable s.ordering key false }

/-- `onDragStart` handler: `setDragging(item.key)`. -/
def onDragStartH (s : SectionState) (key : Int) : SectionState :=
  { s with dragging := some key }

/-- `onDragEnd` handler: `setDragging(null); setDraggable(item.key, false)`. -/
def onDragEndH (s : SectionState) (key : Int) : SectionState :=
  { ordering := setDraggable s.ordering key false, dragging := none }

/-- `onDragEnter` handler: `if (dragging) { setOrder(dragging, getOrder(item.key)) }`.
JS truthiness of `dragging`: `null` is falsy, and so is the key `0`. -/
def onDragEnterH (s : SectionState) (key : Int) : SectionState :=
  match s.dragging with
  | some d =>
    if d != 0 then { s with ordering := setOrder s.ordering d (getOrder s.ordering key) } else s
  | none => s

/-- The drag-session events of the spec's state machine: a begin-drag
gesture on a row (its pointer-down `onDragDown` immediately followed by
the browser's `onDragStart`), a drag-enter on a row, and a drag-end on a
row. -/
inductive DragEvent where
  | beginDrag (key : Int)
  | dragEnter (key : Int)
  | dragEnd (key : Int)
deriving DecidableEq

/-- One step of the drag-session machine, dispatching to the handlers. -/
def dragStep (s : SectionState) : DragEvent → SectionState
  | .beginDrag k => onDragStartH (onDragDownH s k) k
  | .dragEnter k => onDragEnterH s k
  | .dragEnd k => onDragEndH s k

/-- Run a sequence of drag events. -/
def runDrag (s : SectionState) (tr : List DragEvent) : SectionState :=
  tr.foldl dragStep s

/-- The identifier sequence of an order store. -/
def keysOf (l : List OrderEntry) : List Int :=
  l.map OrderEntry.key

/-- Admissible drag-event sequences, reflecting the browser's event
ordering that the component relies on: a begin-drag only fires while no
drag is active, every event targets a rendered row (one whose key is in
the store), and a drag-end is delivered on the actively dragged row. -/
def wfFrom : SectionState → List DragEvent → Bool
  | _, [] => true
  | s, e :: tr =>
    (match e with
     | .beginDrag k => s.dragging == none && (keysOf s.ordering).contains k
     | .dragEnter k => (keysOf s.ordering).contains k
     | .dragEnd k => s.dragging == some k) && wfFrom (dragStep s e) tr

/-- The drag-session invariant: every entry whose flag is raised is the
actively dragged row, the store's keys stay duplicate-free, and the active
key (when any) is present in the store. -/
def InvS (s : SectionState) : Prop :=
  (∀ e ∈ s.ordering, e.draggable = true → s.dragging = some e.key) ∧
    (keysOf s.ordering).Nodup ∧
    ∀ d, s.dragging = some d → d ∈ keysOf s.ordering

/-- JS `String.prototype.startsWith`-style check on character lists:
`startsWithChars pat text` is true when `text` begins with `pat`. -/
def startsWithChars : List Char → List Char → Bool
  | [], _ => true
  | _ :: _, [] => false
  | c :: pat, d :: text => c == d && startsWithChars pat text

/-- JS `String.prototype.includes`: `strIncludes text pat` is true when
`pat` occurs contiguously inside `text`. -/
def strIncludes : List Char → List Char → Bool
  | [], pat => startsWithChars pat []
  | c :: t, pat => startsWithChars pat (c :: t) || strIncludes t pat

/-- The label-filter predicate of `TodoList`:
`!props.filter.label || item.labels.includes(props.filter.label)`
(label values are non-empty strings, hence truthy; only `null`/absent is
falsy). -/
def labelPass (f : FilterCriteria) (item : Item) : Bool :=
  match f.label with
  | none => true
  | some lab => item.labels.contains lab

/-- The search-filter predicate of `TodoList`:
`props.filter.words.every((word) => desc.includes(word))` where
`desc = item.description.toLowerCase()`. -/
def searchPass (f : FilterCriteria) (item : Item) : Bool :=
  f.words.all (fun word => strIncludes (item.description.map Char.toLower) word)

/-- The `filtered` memo of `TodoList`: filter by label, then by search. -/
def filtered (list : List Item) (f : FilterCriteria) : List Item :=
  (list.filter (labelPass f)).filter (searchPass f)

/-- One step of the `allStatus` reduce of `TodoList`. -/
def allStatusStep (acc : Bool × Option Bool) (item : Item) : Bool × Option Bool :=
  if !acc.1 then (false, none)
  else
    match acc.2 with
    | none => (acc.1, some item.status)
    | some p => (p == item.status, some item.status)

/-- The `allStatus` memo of `TodoList`: the first component of
`filtered.reduce(..., [true, null])`. -/
def allStatus (l : List Item) : Bool :=
  (l.foldl allStatusStep (true, none)).1

/-- Insertion of an element at position `n` of a list (the spec's
"reinsert at targetPosition"). -/
def insertAt (n : Nat) (a : α) (l : List α) : List α :=
  l.take n ++ a :: l.drop n

/-- The filter acceptance condition in the spec's words: the label
criterion is unset or the item's label set contains it, and every required
word is a case-insensitive substring of the item's description. -/
def passesSpec (f : FilterCriteria) (item : Item) : Prop :=
  (f.label = none ∨ ∃ lab, f.label = some lab ∧ lab ∈ item.labels) ∧
    ∀ w ∈ f.words, ∃ u v,
      item.description.map Char.toLower = u ++ w.map Char.toLower ++ v

/-- A concrete item with a given key (for the end-to-end scenario). -/
def demoItem (k : Int) : Item :=
  { key := k, description := [], status := false, labels := [] }

/-- The scenario's initial natural order `[3, 1, 2]`. -/
def demoItems312 : List Item :=
  [demoItem 3, demoItem 1, demoItem 2]

/-- The scenario's current items `[3, 1, 2, 5]`. -/
def demoItems3125 : List Item :=
  [demoItem 3, demoItem 1, demoItem 2, demoItem 5]

/-- The filter example's first item: description "buy milk", no labels. -/
def demoMilk : Item :=
  { key := 1, description := "buy milk".toList, status := false, labels := [] }

/-- The filter example's second item: description "buy bread", label red. -/
def demoBread : Item :=
  { key := 2, description := "buy bread".toList, status := false, labels := [Label.red] }

/-- The filter example's criteria: words `["buy"]`, label red. -/
def demoCriteria : FilterCriteria :=
  { words := ["buy".toList], label := some Label.red }

/-! ### Helper lemmas about the JS array helpers -/

theorem jsClamp_ofNat (n i : Nat) : jsClamp n (Int.ofNat i) = min i n := by
  unfold jsClamp
  simp only [Int.ofNat_eq_natCast]
  rw [if_neg (by omega)]
  simp

theorem jsSlice_ofNat (l : List α) (a b : Nat) :
    jsSlice l (Int.ofNat a) (Int.ofNat b) = (l.take b).drop a := by
  unfold jsSlice
  rw [jsClamp_ofNat, jsClamp_ofNat]
  have h1 : l.take (min b l.length) = l.take b := by
    rcases le_total b l.length with h | h
    · rw [min_eq_left h]
    · rw [min_eq_right h, List.take_length, List.take_of_length_le h]
  rw [h1]
  rcases le_total a l.length with h | h
  · rw [min_eq_left h]
  · rw [min_eq_right h]
    have hlen : (l.take b).length ≤ l.length := by
      rw [List.length_take]; exact min_le_right _ _
    rw [List.drop_eq_nil_of_le hlen, List.drop_eq_nil_of_le (le_trans hlen h)]

theorem jsSliceFrom_ofNat (l : List α) (a : Nat) :
    jsSliceFrom l (Int.ofNat a) = l.drop a := by
  unfold jsSliceFrom
  rw [jsSlice_ofNat, List.take_length]

theorem jsElemList_ofNat (l : List α) (i : Nat) :
    jsElemList l (Int.ofNat i) = (l.get? i).toList := by
  unfold jsElemList
  simp only [Int.ofNat_eq_natCast]
  rw [if_pos (by omega)]
  simp

theorem findIndexJs_found (p : α → Bool) (l : List α) (i : Nat)
    (hfind : l.findIdx p = i) (hi : i < l.length) : findIndexJs p l = Int.ofNat i := by
  unfold findIndexJs
  rw [hfind, if_pos hi]

theorem findIndexJs_absent (p : α → Bool) (l : List α)
    (h : ∀ a ∈ l, p a = false) : findIndexJs p l = -1 := by
  unfold findIndexJs
  have hlen : l.findIdx p = l.length := by
    rw [List.findIdx_eq_length]
    intro a ha
    exact h a ha
  rw [hlen, if_neg (lt_irrefl _)]

theorem take_get_drop (l : List α) (p : Nat) (e : α) (h : l.get? p = some e) :
    l.take p ++ e :: l.drop (p + 1) = l := by
  induction l generalizing p with
  | nil => simp at h
  | cons c t ih =>
    cases p with
    | zero =>
      simp only [List.get?_cons_zero, Option.some_inj] at h
      simp [h]
    | succ n =>
      simp only [List.get?_cons_succ] at h
      simp only [List.take_succ_cons, List.drop_succ_cons, List.cons_append]
      rw [ih n h]

theorem set_get_self (l : List α) (i : Nat) (a : α) (h : l.get? i = some a) :
    l.set i a = l := by
  induction l generalizing i with
  | nil => rfl
  | cons c t ih =>
    cases i with
    | zero =>
      simp only [List.get?_cons_zero, Option.some_inj] at h
      simp [h]
    | succ n =>
      simp only [List.get?_cons_succ] at h
      rw [List.set_cons_succ, ih n h]

/-! ### Structural lemmas about `setDraggable` -/

theorem setDraggable_cons_pos (c : OrderEntry) (t : List OrderEntry) (key : Int) (v : Bool)
    (h : (c.key == key) = true) :
    setDraggable (c :: t) key v = { c with draggable := v } :: t := by
  unfold setDraggable
  rw [List.findIdx_cons]
  simp [h]

theorem setDraggable_cons_neg (c : OrderEntry) (t : List OrderEntry) (key : Int) (v : Bool)
    (h : (c.key == key) = false) :
    setDraggable (c :: t) key v = c :: setDraggable t key v := by
  unfold setDraggable
  rw [List.findIdx_cons]
  simp only [h, cond_false]
  cases hg : t[(t.findIdx fun ord => ord.key == key)]? with
  | none => simp [hg]
  | some ord => simp [hg, List.set_cons_succ]

/-! ### Pointwise facts about the reconciliation predicate -/

theorem all_ne_eq_not_mem (s : List OrderEntry) (k : Int) :
    (s.all fun ord => k != ord.key) = !(decide (k ∈ s.map OrderEntry.key)) := by
  induction s with
  | nil => simp
  | cons c t ih =>
    by_cases hk : k = c.key
    · simp [hk]
    · simp [List.all_cons, List.mem_cons, hk, ih]

theorem filter_key_map (l : List Item) (q : Int → Bool) :
    (l.filter fun i => q i.key).map Item.key = (l.map Item.key).filter q := by
  induction l with
  | nil => rfl
  | cons c t ih =>
    by_cases h : q c.key
    · simp [List.filter_cons, h, ih]
    · simp [List.filter_cons, h, ih]

/-- C1. Reconcile only appends: every existing entry of the store is left
unchanged and in its original relative order (the original store is the
prefix of the result), the appended suffix consists of exactly the
identifiers of the item list not already present in the store, in the
relative order they appear in that list, each with `draggable = false`,
and no entry is ever removed (the result is never shorter). -/
theorem reconcile_append_only (s : List OrderEntry) (l : List Item) :
    (reconcile s l).take s.length = s ∧
      ((reconcile s l).drop s.length).map OrderEntry.key =
        (l.map Item.key).filter (fun k => !(decide (k ∈ s.map OrderEntry.key))) ∧
      (((reconcile s l).drop s.length).all fun e => e.draggable == false) = true ∧
      s.length ≤ (reconcile s l).length := by
  have hre : reconcile s l =
      s ++ (l.filter (fun item => s.all fun ord => item.key != ord.key)).map
        (fun item => { key := item.key, draggable := false }) := rfl
  have htake : (reconcile s l).take s.length = s := by
    rw [hre]; exact List.take_left s _
  have hdrop : (reconcile s l).drop s.length =
      (l.filter (fun item => s.all fun ord => item.key != ord.key)).map
        (fun item => { key := item.key, draggable := false }) := by
    rw [hre]; exact List.drop_left s _
  refine ⟨htake, ?_, ?_, ?_⟩
  · rw [hdrop]
    have h1 : ((l.filter (fun item => s.all fun ord => item.key != ord.key)).map
        (fun item => ({ key := item.key, draggable := false } : OrderEntry))).map OrderEntry.key =
        (l.filter (fun item => s.all fun ord => item.key != ord.key)).map Item.key := by
      rw [List.map_map]; rfl
    rw [h1, filter_key_map l (fun k => s.all fun ord => k != ord.key)]
    exact List.filter_congr (fun k _ => all_ne_eq_not_mem s k)
  · rw [hdrop, List.all_eq_true]
    intro e he
    rcases List.mem_map.mp he with ⟨i, _, rfl⟩
    rfl
  · rw [hre, List.length_append]
    exact Nat.le_add_right _ _

/-- C2. Reconcile is idempotent: applying it twice with the same current
item list yields the same sequence as applying it once. -/
theorem reconcile_idem (s : List OrderEntry) (l : List Item) :
    reconcile (reconcile s l) l = reconcile s l := by
  have h : l.filter (fun item => (reconcile s l).all fun ord => item.key != ord.key) = [] := by
    rw [List.filter_eq_nil_iff]
    intro i hi hcontra
    rw [List.all_eq_true] at hcontra
    by_cases hc : (s.all fun ord => i.key != ord.key) = true
    · have hmem : ({ key := i.key, draggable := false } : OrderEntry) ∈ reconcile s l := by
        refine List.mem_append_right _ ?_
        exact List.mem_map_of_mem _ (List.mem_filter.mpr ⟨hi, hc⟩)
      have := hcontra _ hmem
      simp [bne] at this
    · rw [List.all_eq_true] at hc
      push_neg at hc
      obtain ⟨ord, hord, hberr⟩ := hc
      exact hberr (hcontra _ (List.mem_append_left _ hord))
  have hre : reconcile (reconcile s l) l =
      reconcile s l ++
        (l.filter (fun item => (reconcile s l).all fun ord => item.key != ord.key)).map
          (fun item => { key := item.key, draggable := false }) := rfl
  rw [hre, h, List.map_nil, List.append_nil]

/-- C7. Unknown-identifier lookups never fail: on a key absent from the
store, `setDraggable` leaves the ordered entry sequence unchanged,
`getOrder` returns `-1` without failing, and the drag-end handler still
resolves the session to Idle (`dragging = none`) with the store intact. -/
theorem unknown_key_noop (s : List OrderEntry) (key : Int) (v : Bool) (d : Option Int)
    (h : (s.all fun ord => ord.key != key) = true) :
    setDraggable s key v = s ∧ getOrder s key = -1 ∧
      onDragEndH ⟨s, d⟩ key = ⟨s, none⟩ := by
  have hall : ∀ ord ∈ s, (ord.key == key) = false := by
    rw [List.all_eq_true] at h
    intro ord hord
    simpa [bne] using h ord hord
  have hlen : s.findIdx (fun ord => ord.key == key) = s.length := by
    rw [List.findIdx_eq_length]
    intro ord hord
    exact hall ord hord
  have hnone : s.get? (s.findIdx fun ord => ord.key == key) = none := by
    rw [hlen]
    exact List.get?_eq_none.mpr (le_refl _)
  have hset : ∀ v' : Bool, setDraggable s key v' = s := by
    intro v'
    unfold setDraggable
    simp only [← List.get?_eq_getElem?, hnone]
  refine ⟨hset v, findIndexJs_absent _ _ hall, ?_⟩
  unfold onDragEndH
  rw [hset false]

/-- C10. Order mutation happens only during an active drag: a drag-enter
event received while no drag is active leaves the state (in particular the
order store) completely unchanged. -/
theorem dragEnter_idle_noop (s : SectionState) (k : Int) (h : s.dragging = none) :
    dragStep s (DragEvent.dragEnter k) = s := by
  simp [dragStep, onDragEnterH, h]

/-- C9. Initialization seeding: with a persisted sequence present the store
is seeded from it in order; otherwise it is seeded from the natural
arrival order of the item list; `draggable` is `false` for every seeded
entry in both cases. -/
theorem initialOrdering_seeding (persisted : Option (List Int)) (list : List Item) :
    (initialOrdering persisted list).map OrderEntry.key = persisted.getD (list.map Item.key) ∧
      ((initialOrdering persisted list).all fun e => e.draggable == false) = true := by
  cases persisted with
  | some ks =>
    constructor
    · simp only [initialOrdering, Option.getD_some, List.map_map]
      exact List.map_id ks
    · rw [List.all_eq_true]
      intro e he
      rcases List.mem_map.mp he with ⟨k, _, rfl⟩
      rfl
  | none =>
    constructor
    · simp only [initialOrdering, Option.getD_none, List.map_map]
      rfl
    · rw [List.all_eq_true]
      intro e he
      rcases List.mem_map.mp he with ⟨i, _, rfl⟩
      rfl

/-! ### The uniform-completion fold -/

theorem allStatus_fold_false (l : List Item) (o : Option Bool) :
    (l.foldl allStatusStep (false, o)).1 = false := by
  induction l generalizing o with
  | nil => rfl
  | cons c t ih =>
    have hstep : allStatusStep (false, o) c = (false, none) := rfl
    rw [List.foldl_cons, hstep]
    exact ih none

theorem allStatus_fold_some (l : List Item) (p : Bool) :
    (l.foldl allStatusStep (true, some p)).1 = true ↔ ∀ x ∈ l, x.status = p := by
  induction l generalizing p with
  | nil => simp
  | cons c t ih =>
    by_cases h : c.status = p
    · have hstep : allStatusStep (true, some p) c = (true, some c.status) := by
        simp [allStatusStep, h]
      rw [List.foldl_cons, hstep, ih c.status]
      constructor
      · intro hall x hx
        rcases List.mem_cons.mp hx with rfl | hx'
        · exact h
        · rw [hall x hx', h]
      · intro hall x hx
        rw [hall x (List.mem_cons_of_mem _ hx), ← h]
    · have hstep : allStatusStep (true, some p) c = (false, some c.status) := by
        simp [allStatusStep]
        intro hpc
        exact absurd hpc.symm h
      rw [List.foldl_cons, hstep]
      constructor
      · intro hfalse
        rw [allStatus_fold_false] at hfalse
        exact absurd hfalse (by simp)
      · intro hall
        exact absurd (hall c (List.mem_cons_self _ _)) h

/-- C8. The uniform-completion signal is correct: `allStatus` is `true`
exactly when all items of the list share the same completion flag; for the
empty list the right-hand side is vacuous, so the signal is vacuously
`true`. -/
theorem allStatus_iff_uniform (l : List Item) :
    allStatus l = true ↔ ∀ x ∈ l, ∀ y ∈ l, x.status = y.status := by
  cases l with
  | nil => simp [allStatus]
  | cons c t =>
    have hstep : allStatusStep (true, none) c = (true, some c.status) := rfl
    unfold allStatus
    rw [List.foldl_cons, hstep, allStatus_fold_some]
    constructor
    · intro hall x hx y hy
      have hs : ∀ z ∈ c :: t, z.status = c.status := by
        intro z hz
        rcases List.mem_cons.mp hz with rfl | hz'
        · rfl
        · exact hall z hz'
      rw [hs x hx, hs y hy]
    · intro h x hx
      exact h x (List.mem_cons_of_mem _ hx) c (List.mem_cons_self _ _)

/-! ### Characterization of `setOrder` at a present key -/

theorem int_zero_eq_ofNat : (0 : Int) = Int.ofNat 0 := rfl

theorem int_ofNat_add_one (n : Nat) : Int.ofNat n + 1 = Int.ofNat (n + 1) := rfl

theorem ofNat_lt_ofNat {a b : Nat} (h : a < b) : Int.ofNat a < Int.ofNat b := by
  rw [Int.ofNat_eq_natCast, Int.ofNat_eq_natCast]
  exact_mod_cast h

theorem not_ofNat_lt_ofNat {a b : Nat} (h : b ≤ a) : ¬Int.ofNat a < Int.ofNat b := by
  rw [Int.ofNat_eq_natCast, Int.ofNat_eq_natCast]
  intro hcontra
  exact absurd (by exact_mod_cast hcontra) (not_lt.mpr h)

theorem getOrder_found (s : List OrderEntry) (key : Int) (p : Nat)
    (hfind : s.findIdx (fun ord => ord.key == key) = p) (hp : p < s.length) :
    getOrder s key = Int.ofNat p :=
  findIndexJs_found _ _ _ hfind hp

theorem move_pieces_lt (s : List α) (p t : Nat) (e : α)
    (hlt : t < p) (hp : p < s.length) :
    s.take t ++ ([e] ++ ((s.take p).drop t ++ s.drop (p + 1))) = insertAt t e (s.eraseIdx p) := by
  have htakep : (s.take p).length = p := by
    rw [List.length_take]
    exact min_eq_left (le_of_lt hp)
  unfold insertAt
  rw [List.eraseIdx_eq_take_drop_succ,
    List.take_append_of_le_length (by rw [htakep]; exact le_of_lt hlt),
    List.drop_append_of_le_length (by rw [htakep]; exact le_of_lt hlt),
    List.take_take, min_eq_left (le_of_lt hlt)]
  rfl

theorem move_pieces_gt (s : List α) (p t : Nat) (e : α)
    (hgt : p < t) (hp : p < s.length) :
    s.take p ++ ((s.take (t + 1)).drop (p + 1) ++ ([e] ++ s.drop (t + 1))) =
      insertAt t e (s.eraseIdx p) := by
  have htakep : (s.take p).length = p := by
    rw [List.length_take]
    exact min_eq_left (le_of_lt hp)
  unfold insertAt
  rw [List.eraseIdx_eq_take_drop_succ,
    List.take_append_eq_append_take, List.take_take, min_eq_right (le_of_lt hgt), htakep,
    List.drop_append_eq_append_drop, htakep,
    List.drop_eq_nil_of_le (by rw [htakep]; omega : (s.take p).length ≤ t),
    List.nil_append,
    List.drop_take, List.drop_drop,
    (by omega : t + 1 - (p + 1) = t - p), (by omega : p + 1 + (t - p) = t + 1)]
  simp [List.append_assoc]

theorem setOrder_eq_insertAt (s : List OrderEntry) (key : Int) (p t : Nat) (e : OrderEntry)
    (hfind : s.findIdx (fun ord => ord.key == key) = p)
    (hp : p < s.length) (hget : s.get? p = some e) (ht : t < s.length) :
    setOrder s key (Int.ofNat t) = insertAt t e (s.eraseIdx p) := by
  have hold : getOrder s key = Int.ofNat p := getOrder_found s key p hfind hp
  have htakep : (s.take p).length = p := by
    rw [List.length_take]
    exact min_eq_left (le_of_lt hp)
  rcases Nat.lt_trichotomy t p with hlt | heq | hgt
  · have hL : setOrder s key (Int.ofNat t) =
        s.take t ++ ([e] ++ ((s.take p).drop t ++ s.drop (p + 1))) := by
      show (if Int.ofNat t < getOrder s key then _ else _) = _
      rw [hold, if_pos (ofNat_lt_ofNat hlt), int_zero_eq_ofNat, int_ofNat_add_one,
        jsSlice_ofNat, jsSlice_ofNat, jsElemList_ofNat, jsSliceFrom_ofNat, hget,
        List.drop_zero]
      simp [List.append_assoc]
    rw [hL]
    exact move_pieces_lt s p t e hlt hp
  · subst heq
    have hL : setOrder s key (Int.ofNat t) = s := by
      show (if Int.ofNat t < getOrder s key then _ else _) = _
      rw [hold, if_neg (not_ofNat_lt_ofNat (le_refl t)), if_neg (not_ofNat_lt_ofNat (le_refl t))]
    rw [hL]
    unfold insertAt
    rw [List.eraseIdx_eq_take_drop_succ,
      List.take_append_of_le_length (by rw [htakep]),
      List.drop_append_of_le_length (by rw [htakep]),
      List.take_take, min_self,
      List.drop_eq_nil_of_le (by rw [htakep]), List.nil_append]
    exact (take_get_drop s t e hget).symm
  · have hL : setOrder s key (Int.ofNat t) =
        s.take p ++ ((s.take (t + 1)).drop (p + 1) ++ ([e] ++ s.drop (t + 1))) := by
      show (if Int.ofNat t < getOrder s key then _ else _) = _
      rw [hold, if_neg (not_ofNat_lt_ofNat (le_of_lt hgt)), if_pos (ofNat_lt_ofNat hgt),
        int_zero_eq_ofNat, int_ofNat_add_one, int_ofNat_add_one,
        jsSlice_ofNat, jsSlice_ofNat, jsElemList_ofNat, jsSliceFrom_ofNat, hget,
        List.drop_zero]
      simp [List.append_assoc]
    rw [hL]
    exact move_pieces_gt s p t e hgt hp

theorem cons_eraseIdx_perm (s : List α) (p : Nat) (e : α) (hget : s.get? p = some e) :
    (e :: s.eraseIdx p).Perm s := by
  rw [List.eraseIdx_eq_take_drop_succ]
  have h1 : (e :: (s.take p ++ s.drop (p + 1))).Perm (s.take p ++ e :: s.drop (p + 1)) :=
    List.perm_middle.symm
  have h2 : s.take p ++ e :: s.drop (p + 1) = s := take_get_drop s p e hget
  have h3 : (s.take p ++ e :: s.drop (p + 1)).Perm s := by rw [h2]
  exact h1.trans h3

theorem insertAt_perm (t : Nat) (e : α) (l : List α) : (insertAt t e l).Perm (e :: l) := by
  unfold insertAt
  have h1 : (l.take t ++ e :: l.drop t).Perm (e :: (l.take t ++ l.drop t)) := List.perm_middle
  rw [List.take_append_drop] at h1
  exact h1

theorem setOrder_perm (s : List OrderEntry) (key : Int) (p : Nat) (t : Int)
    (hfind : s.findIdx (fun ord => ord.key == key) = p)
    (hp : p < s.length) (ht : 0 ≤ t) :
    (setOrder s key t).Perm s := by
  have hget : s.get? p = some (s.get ⟨p, hp⟩) := List.get?_eq_get hp
  obtain ⟨tn, rfl⟩ : ∃ tn : Nat, t = Int.ofNat tn :=
    ⟨t.toNat, by rw [Int.ofNat_eq_natCast, Int.toNat_of_nonneg ht]⟩
  rcases lt_or_le tn s.length with hlt | hge
  · rw [setOrder_eq_insertAt s key p tn _ hfind hp hget hlt]
    exact (insertAt_perm _ _ _).trans (cons_eraseIdx_perm s p _ hget)
  · have hold : getOrder s key = Int.ofNat p := getOrder_found s key p hfind hp
    have hgt : p < tn := lt_of_lt_of_le hp hge
    have hL : setOrder s key (Int.ofNat tn) =
        s.take p ++ ((s.take (tn + 1)).drop (p + 1) ++
          ([s.get ⟨p, hp⟩] ++ s.drop (tn + 1))) := by
      show (if Int.ofNat tn < getOrder s key then _ else _) = _
      rw [hold, if_neg (not_ofNat_lt_ofNat (le_of_lt hgt)), if_pos (ofNat_lt_ofNat hgt),
        int_zero_eq_ofNat, int_ofNat_add_one, int_ofNat_add_one,
        jsSlice_ofNat, jsSlice_ofNat, jsElemList_ofNat, jsSliceFrom_ofNat, hget,
        List.drop_zero]
      simp [List.append_assoc]
    rw [hL, List.take_of_length_le (by omega : s.length ≤ tn + 1),
      List.drop_eq_nil_of_le (by omega : s.length ≤ tn + 1)]
    have hshape : s.take p ++ (s.drop (p + 1) ++ ([s.get ⟨p, hp⟩] ++ [])) =
        (s.take p ++ s.drop (p + 1)) ++ [s.get ⟨p, hp⟩] := by
      simp [List.append_assoc]
    rw [hshape]
    have h1 : ((s.take p ++ s.drop (p + 1)) ++ [s.get ⟨p, hp⟩]).Perm
        (s.get ⟨p, hp⟩ :: (s.take p ++ s.drop (p + 1))) :=
      List.perm_append_singleton _ _
    have h2 : (s.get ⟨p, hp⟩ :: s.eraseIdx p).Perm s := cons_eraseIdx_perm s p _ hget
    rw [List.eraseIdx_eq_take_drop_succ] at h2
    exact h1.trans h2

/-- C3. Move is a single-element reinsertion: when the key sits at position
`p` and the target position `t` is within the sequence, `setOrder` equals
removing the entry at `p` and reinserting it at `t` (all other entries
keeping their relative order, being untouched by the erase/insert); when
`t = p` the sequence is completely unchanged; and the end-to-end scenario
holds: seeding `[3,1,2]`, reconciling with `[3,1,2,5]` and moving key `2`
to position `0` yields `[2,3,1,5]`. -/
theorem setOrder_move_spec (s : List OrderEntry) (key : Int) (p t : Nat) (e : OrderEntry)
    (hfind : s.findIdx (fun ord => ord.key == key) = p)
    (hp : p < s.length) (hget : s.get? p = some e) (ht : t < s.length) :
    setOrder s key (Int.ofNat t) = insertAt t e (s.eraseIdx p) ∧
      (t = p → setOrder s key (Int.ofNat t) = s) ∧
      (setOrder (reconcile (initialOrdering none demoItems312) demoItems3125) 2 0).map
        OrderEntry.key = [2, 3, 1, 5] := by
  refine ⟨setOrder_eq_insertAt s key p t e hfind hp hget ht, ?_, by decide⟩
  intro heq
  subst heq
  have hold : getOrder s key = Int.ofNat t := getOrder_found s key t hfind hp
  show (if Int.ofNat t < getOrder s key then _ else _) = s
  rw [hold, if_neg (not_ofNat_lt_ofNat (le_refl t)), if_neg (not_ofNat_lt_ofNat (le_refl t))]

/-- Witness for C3 at the concrete store `[1,2,3]`, key `2` (position 1),
target position 1. -/
theorem setOrder_move_spec_witness :
    setOrder [⟨1, false⟩, ⟨2, false⟩, ⟨3, false⟩] 2 (Int.ofNat 1) =
        insertAt 1 ⟨2, false⟩
          (List.eraseIdx [⟨1, false⟩, ⟨2, false⟩, ⟨3, false⟩] 1) ∧
      ((1 : Nat) = 1 → setOrder [⟨1, false⟩, ⟨2, false⟩, ⟨3, false⟩] 2 (Int.ofNat 1) =
        [⟨1, false⟩, ⟨2, false⟩, ⟨3, false⟩]) ∧
      (setOrder (reconcile (initialOrdering none demoItems312) demoItems3125) 2 0).map
        OrderEntry.key = [2, 3, 1, 5] :=
  setOrder_move_spec [⟨1, false⟩, ⟨2, false⟩, ⟨3, false⟩] 2 1 1 ⟨2, false⟩
    (by decide) (by decide) (by decide) (by decide)

/-- Counterexample to C4 as stated: with the key present but a negative
`targetPosition` (an integer the spec's `move` contract admits), the JS
slice arithmetic duplicates entries — moving key `1` of `[1,2,3]` to
position `-1` produces `[1,2,1,2,3]`, which changes both the identifier
multiset and the length. -/
theorem setOrder_negative_target_cex :
    setOrder [⟨1, false⟩, ⟨2, false⟩, ⟨3, false⟩] 1 (-1) =
        [⟨1, false⟩, ⟨2, false⟩, ⟨1, false⟩, ⟨2, false⟩, ⟨3, false⟩] ∧
      (setOrder [⟨1, false⟩, ⟨2, false⟩, ⟨3, false⟩] 1 (-1)).length ≠
        ([⟨1, false⟩, ⟨2, false⟩, ⟨3, false⟩] : List OrderEntry).length := by
  decide

/-- C4 (amended). Move preserves the identifier multiset: whenever the
moved identifier is present in the store and the target position is
nonnegative, the identifier sequence after `setOrder` is a permutation of
the one before, and the length is unchanged. -/
theorem setOrder_preserves_keys (s : List OrderEntry) (key : Int) (p : Nat) (t : Int)
    (hfind : s.findIdx (fun ord => ord.key == key) = p)
    (hp : p < s.length) (ht : 0 ≤ t) :
    ((setOrder s key t).map OrderEntry.key).Perm (s.map OrderEntry.key) ∧
      (setOrder s key t).length = s.length := by
  have h := setOrder_perm s key p t hfind hp ht
  exact ⟨h.map OrderEntry.key, h.length_eq⟩

/-- Witness for C4 at the concrete store `[1,2]`, key `2`, target 0. -/
theorem setOrder_preserves_keys_witness :
    ((setOrder [⟨1, false⟩, ⟨2, false⟩] 2 0).map OrderEntry.key).Perm
        (([⟨1, false⟩, ⟨2, false⟩] : List OrderEntry).map OrderEntry.key) ∧
      (setOrder [⟨1, false⟩, ⟨2, false⟩] 2 0).length =
        ([⟨1, false⟩, ⟨2, false⟩] : List OrderEntry).length :=
  setOrder_preserves_keys [⟨1, false⟩, ⟨2, false⟩] 2 1 0 (by decide) (by decide) (by decide)

/-! ### The filter stage -/

theorem startsWithChars_iff (pat text : List Char) :
    startsWithChars pat text = true ↔ ∃ v, text = pat ++ v := by
  induction pat generalizing text with
  | nil =>
    simp [startsWithChars]
  | cons c pat ih =>
    cases text with
    | nil =>
      simp [startsWithChars]
    | cons d t =>
      simp only [startsWithChars, Bool.and_eq_true, beq_iff_eq, ih]
      constructor
      · rintro ⟨rfl, v, rfl⟩
        exact ⟨v, rfl⟩
      · rintro ⟨v, hv⟩
        rw [List.cons_append] at hv
        injection hv with h1 h2
        exact ⟨h1.symm, v, h2⟩

theorem strIncludes_iff (text pat : List Char) :
    strIncludes text pat = true ↔ ∃ u v, text = u ++ pat ++ v := by
  induction text with
  | nil =>
    cases pat with
    | nil =>
      constructor
      · intro _
        exact ⟨[], [], rfl⟩
      · intro _
        rfl
    | cons c p' =>
      simp only [strIncludes, startsWithChars]
      constructor
      · intro h
        exact absurd h (by simp)
      · rintro ⟨u, v, huv⟩
        cases u <;> simp_all
  | cons c t ih =>
    simp only [strIncludes, Bool.or_eq_true, startsWithChars_iff, ih]
    constructor
    · rintro (⟨v, hv⟩ | ⟨u, v, rfl⟩)
      · exact ⟨[], v, by simpa using hv⟩
      · exact ⟨c :: u, v, by simp⟩
    · rintro ⟨u, v, huv⟩
      cases u with
      | nil =>
        left
        exact ⟨v, by simpa using huv⟩
      | cons x u' =>
        right
        rw [List.cons_append, List.cons_append] at huv
        injection huv with h1 h2
        exact ⟨u', v, h2⟩

theorem labelPass_iff (f : FilterCriteria) (item : Item) :
    labelPass f item = true ↔
      (f.label = none ∨ ∃ lab, f.label = some lab ∧ lab ∈ item.labels) := by
  cases hl : f.label with
  | none => simp [labelPass, hl]
  | some lab =>
    simp only [labelPass, hl]
    rw [show (item.labels.contains lab = true ↔ lab ∈ item.labels) by
      simp [List.contains, List.elem_iff]]
    constructor
    · intro h
      exact Or.inr ⟨lab, rfl, h⟩
    · rintro (hnone | ⟨lab2, hlab2, hmem⟩)
      · exact absurd hnone (by simp)
      · injection hlab2 with h2
        exact h2 ▸ hmem

theorem searchPass_iff (f : FilterCriteria) (item : Item)
    (hlower : ∀ w ∈ f.words, w.map Char.toLower = w) :
    searchPass f item = true ↔
      ∀ w ∈ f.words, ∃ u v,
        item.description.map Char.toLower = u ++ w.map Char.toLower ++ v := by
  unfold searchPass
  rw [List.all_eq_true]
  constructor
  · intro h w hw
    rw [hlower w hw]
    exact (strIncludes_iff _ _).mp (h w hw)
  · intro h w hw
    have h2 := h w hw
    rw [hlower w hw] at h2
    exact (strIncludes_iff _ _).mpr h2

/-- C6. The filter is conjunctive and order-preserving: an item is in the
output exactly when it is in the input, the label criterion is unset or
contained in the item's labels, and every required word (lowercase, per
the criteria contract) occurs case-insensitively in the description; the
output is a sublist of the input, hence preserves its relative order; and
the spec's example — items "buy milk" (no label) and "buy bread" (red)
with criteria `{words: ["buy"], label: red}` — yields only the second. -/
theorem filtered_conjunctive (list : List Item) (f : FilterCriteria)
    (hlower : ∀ w ∈ f.words, w.map Char.toLower = w) :
    (∀ item : Item, item ∈ filtered list f ↔ item ∈ list ∧ passesSpec f item) ∧
      (filtered list f).Sublist list ∧
      filtered [demoMilk, demoBread] demoCriteria = [demoBread] := by
  refine ⟨?_, ?_, by decide⟩
  · intro item
    unfold filtered passesSpec
    rw [List.mem_filter, List.mem_filter]
    constructor
    · rintro ⟨⟨hmem, hlab⟩, hsearch⟩
      exact ⟨hmem, (labelPass_iff f item).mp hlab, (searchPass_iff f item hlower).mp hsearch⟩
    · rintro ⟨hmem, hlab, hsearch⟩
      exact ⟨⟨hmem, (labelPass_iff f item).mpr hlab⟩, (searchPass_iff f item hlower).mpr hsearch⟩
  · exact (List.filter_sublist _).trans (List.filter_sublist _)

/-- Witness for C6 at the example items and criteria, instantiating the
membership characterization at the "buy bread" item. -/
theorem filtered_conjunctive_witness :
    demoBread ∈ filtered [demoMilk, demoBread] demoCriteria ↔
      demoBread ∈ [demoMilk, demoBread] ∧ passesSpec demoCriteria demoBread :=
  (filtered_conjunctive [demoMilk, demoBread] demoCriteria (by decide)).1 demoBread

/-! ### Drag-session invariant -/

theorem ofNat_nonneg' (n : Nat) : 0 ≤ Int.ofNat n := by
  rw [Int.ofNat_eq_natCast]
  exact_mod_cast Nat.zero_le n

theorem setDraggable_keysOf (l : List OrderEntry) (k : Int) (v : Bool) :
    keysOf (setDraggable l k v) = keysOf l := by
  induction l with
  | nil => rfl
  | cons c t ih =>
    cases hck : (c.key == k) with
    | true =>
      rw [setDraggable_cons_pos c t k v hck]
      rfl
    | false =>
      rw [setDraggable_cons_neg c t k v hck]
      show c.key :: keysOf (setDraggable t k v) = c.key :: keysOf t
      rw [ih]

theorem setDraggable_true_key (l : List OrderEntry) (k : Int)
    (hfalse : ∀ e ∈ l, e.draggable = false) :
    ∀ e ∈ setDraggable l k true, e.draggable = true → e.key = k := by
  induction l with
  | nil =>
    intro e he
    rw [show setDraggable [] k true = [] from rfl] at he
    exact absurd he (List.not_mem_nil e)
  | cons c t ih =>
    cases hck : (c.key == k) with
    | true =>
      rw [setDraggable_cons_pos c t k true hck]
      intro e he hd
      rcases List.mem_cons.mp he with rfl | he'
      · exact eq_of_beq hck
      · have := hfalse e (List.mem_cons_of_mem c he')
        rw [this] at hd
        exact Bool.noConfusion hd
    | false =>
      rw [setDraggable_cons_neg c t k true hck]
      intro e he hd
      rcases List.mem_cons.mp he with rfl | he'
      · have := hfalse e (List.mem_cons_self e t)
        rw [this] at hd
        exact Bool.noConfusion hd
      · exact ih (fun x hx => hfalse x (List.mem_cons_of_mem c hx)) e he' hd

theorem setDraggable_false_all (l : List OrderEntry) (k : Int)
    (hk : ∀ e ∈ l, e.draggable = true → e.key = k)
    (hnd : (keysOf l).Nodup) :
    ∀ e ∈ setDraggable l k false, e.draggable = false := by
  induction l with
  | nil =>
    intro e he
    rw [show setDraggable [] k false = [] from rfl] at he
    exact absurd he (List.not_mem_nil e)
  | cons c t ih =>
    have hnd' : c.key ∉ keysOf t ∧ (keysOf t).Nodup := by
      rw [show keysOf (c :: t) = c.key :: keysOf t from rfl] at hnd
      exact List.nodup_cons.mp hnd
    cases hck : (c.key == k) with
    | true =>
      rw [setDraggable_cons_pos c t k false hck]
      intro e he
      rcases List.mem_cons.mp he with rfl | he'
      · rfl
      · cases hd : e.draggable with
        | false => rfl
        | true =>
          have hek : e.key = k := hk e (List.mem_cons_of_mem c he') hd
          have hck' : c.key = k := eq_of_beq hck
          have hmem : c.key ∈ keysOf t := by
            rw [hck', ← hek]
            exact List.mem_map_of_mem OrderEntry.key he'
          exact absurd hmem hnd'.1
    | false =>
      rw [setDraggable_cons_neg c t k false hck]
      intro e he
      rcases List.mem_cons.mp he with rfl | he'
      · cases hd : e.draggable with
        | false => rfl
        | true =>
          have := hk e (List.mem_cons_self e t) hd
          rw [this] at hck
          simp at hck
      · exact ih (fun x hx hdx => hk x (List.mem_cons_of_mem c hx) hdx) hnd'.2 e he'

theorem findIdx_lt_of_mem_keys (l : List OrderEntry) (k : Int) (hk : k ∈ keysOf l) :
    l.findIdx (fun ord => ord.key == k) < l.length := by
  apply List.findIdx_lt_length_of_exists
  rcases List.mem_map.mp hk with ⟨e, he, hkey⟩
  exact ⟨e, he, by simp [hkey]⟩

theorem dragStep_beginDrag_inv (s : SectionState) (k : Int) (hinv : InvS s)
    (hidle : s.dragging = none) (hk : k ∈ keysOf s.ordering) :
    InvS (dragStep s (DragEvent.beginDrag k)) := by
  obtain ⟨h1, h2, h3⟩ := hinv
  have hfalse : ∀ e ∈ s.ordering, e.draggable = false := by
    intro e he
    cases hd : e.draggable with
    | false => rfl
    | true =>
      rw [h1 e he hd] at hidle
      exact Option.noConfusion hidle
  show InvS ⟨setDraggable s.ordering k true, some k⟩
  refine ⟨?_, ?_, ?_⟩
  · intro e he hd
    show some k = some e.key
    rw [setDraggable_true_key s.ordering k hfalse e he hd]
  · show (keysOf (setDraggable s.ordering k true)).Nodup
    rw [setDraggable_keysOf]
    exact h2
  · intro d hd
    injection hd with hdk
    show d ∈ keysOf (setDraggable s.ordering k true)
    rw [setDraggable_keysOf, ← hdk]
    exact hk

theorem dragStep_dragEnter_inv (s : SectionState) (k : Int) (hinv : InvS s)
    (hk : k ∈ keysOf s.ordering) :
    InvS (dragStep s (DragEvent.dragEnter k)) := by
  obtain ⟨h1, h2, h3⟩ := hinv
  show InvS (onDragEnterH s k)
  cases hd : s.dragging with
  | none =>
    have hid : onDragEnterH s k = s := by simp [onDragEnterH, hd]
    rw [hid]
    exact ⟨h1, h2, h3⟩
  | some d =>
    cases hz : (d != 0) with
    | false =>
      have hid : onDragEnterH s k = s := by simp [onDragEnterH, hd, hz]
      rw [hid]
      exact ⟨h1, h2, h3⟩
    | true =>
      have hstate : onDragEnterH s k =
          ⟨setOrder s.ordering d (getOrder s.ordering k), s.dragging⟩ := by
        simp [onDragEnterH, hd, hz]
      have hdk : d ∈ keysOf s.ordering := h3 d hd
      have hj : s.ordering.findIdx (fun ord => ord.key == d) < s.ordering.length :=
        findIdx_lt_of_mem_keys _ d hdk
      have hkj : s.ordering.findIdx (fun ord => ord.key == k) < s.ordering.length :=
        findIdx_lt_of_mem_keys _ k hk
      have ht : 0 ≤ getOrder s.ordering k := by
        rw [show getOrder s.ordering k =
          findIndexJs (fun ord => ord.key == k) s.ordering from rfl,
          findIndexJs_found _ _ _ rfl hkj]
        exact ofNat_nonneg' _
      have hperm : (setOrder s.ordering d (getOrder s.ordering k)).Perm s.ordering :=
        setOrder_perm s.ordering d _ _ rfl hj ht
      rw [hstate]
      refine ⟨?_, ?_, ?_⟩
      · intro e he hde
        exact h1 e (hperm.mem_iff.mp he) hde
      · show (List.map OrderEntry.key (setOrder s.ordering d (getOrder s.ordering k))).Nodup
        exact ((hperm.map OrderEntry.key).nodup_iff).mpr h2
      · intro d2 hd2
        show d2 ∈ List.map OrderEntry.key (setOrder s.ordering d (getOrder s.ordering k))
        exact (hperm.map OrderEntry.key).mem_iff.mpr (h3 d2 hd2)

theorem dragStep_dragEnd_inv (s : SectionState) (k : Int) (hinv : InvS s)
    (hd : s.dragging = some k) :
    InvS (dragStep s (DragEvent.dragEnd k)) := by
  obtain ⟨h1, h2, h3⟩ := hinv
  have hk2 : ∀ e ∈ s.ordering, e.draggable = true → e.key = k := by
    intro e he hde
    have h := h1 e he hde
    rw [hd] at h
    injection h with h
    exact h.symm
  show InvS ⟨setDraggable s.ordering k false, none⟩
  refine ⟨?_, ?_, ?_⟩
  · intro e he hde
    have := setDraggable_false_all s.ordering k hk2 h2 e he
    rw [this] at hde
    exact Bool.noConfusion hde
  · show (keysOf (setDraggable s.ordering k false)).Nodup
    rw [setDraggable_keysOf]
    exact h2
  · intro d2 hd2
    exact Option.noConfusion hd2

theorem runDrag_inv (s0 : SectionState) (tr : List DragEvent)
    (hinv : InvS s0) (hwf : wfFrom s0 tr = true) : InvS (runDrag s0 tr) := by
  induction tr generalizing s0 with
  | nil => exact hinv
  | cons e tr ih =>
    have hnext : InvS (dragStep s0 e) ∧ wfFrom (dragStep s0 e) tr = true := by
      cases e with
      | beginDrag k =>
        simp only [wfFrom, Bool.and_eq_true] at hwf
        obtain ⟨⟨hg1, hg2⟩, hwf2⟩ := hwf
        have hidle : s0.dragging = none := by simpa using hg1
        have hk : k ∈ keysOf s0.ordering := by
          simpa [List.contains, List.elem_iff] using hg2
        exact ⟨dragStep_beginDrag_inv s0 k hinv hidle hk, hwf2⟩
      | dragEnter k =>
        simp only [wfFrom, Bool.and_eq_true] at hwf
        obtain ⟨hg, hwf2⟩ := hwf
        have hk : k ∈ keysOf s0.ordering := by
          simpa [List.contains, List.elem_iff] using hg
        exact ⟨dragStep_dragEnter_inv s0 k hinv hk, hwf2⟩
      | dragEnd k =>
        simp only [wfFrom, Bool.and_eq_true] at hwf
        obtain ⟨hg, hwf2⟩ := hwf
        have hd : s0.dragging = some k := by simpa using hg
        exact ⟨dragStep_dragEnd_inv s0 k hinv hd, hwf2⟩
    exact ih (dragStep s0 e) hnext.1 hnext.2

/-- Counterexample to C5 as stated: over arbitrary sequences of begin-drag
events nothing resets the previous row's flag — after `beginDrag 1`
followed by `beginDrag 2` (no intervening drag-end) both entries have
`draggable = true` while row `2` is the active drag, so an entry other
than the actively dragged one keeps `draggable = true` and row 1's flag
was not reset when row 2 began dragging. -/
theorem drag_two_begin_cex :
    (runDrag ⟨[⟨1, false⟩, ⟨2, false⟩], none⟩
        [DragEvent.beginDrag 1, DragEvent.beginDrag 2]).dragging = some 2 ∧
      (runDrag ⟨[⟨1, false⟩, ⟨2, false⟩], none⟩
        [DragEvent.beginDrag 1, DragEvent.beginDrag 2]).ordering =
          [⟨1, true⟩, ⟨2, true⟩] ∧
      ((runDrag ⟨[⟨1, false⟩, ⟨2, false⟩], none⟩
        [DragEvent.beginDrag 1, DragEvent.beginDrag 2]).ordering.all
          fun e => e.key == 2 || e.draggable == false) = false := by
  decide

/-- C5 (amended).  Along every admissible drag-event sequence (begin-drag
only while idle, drag-end on the dragged row, events on rendered rows),
starting from a store with all flags down, no active drag, and
duplicate-free keys: every raised flag belongs to the actively dragged
identifier, at most one entry has `draggable = true`, and once the drag
has ended (state Idle) every flag is down again. -/
theorem drag_single_draggable (s0 : SectionState) (tr : List DragEvent)
    (h0 : ∀ e ∈ s0.ordering, e.draggable = false)
    (h1 : s0.dragging = none)
    (h2 : (keysOf s0.ordering).Nodup)
    (hwf : wfFrom s0 tr = true) :
    (∀ e ∈ (runDrag s0 tr).ordering, e.draggable = true →
        (runDrag s0 tr).dragging = some e.key) ∧
      (∀ e1 ∈ (runDrag s0 tr).ordering, ∀ e2 ∈ (runDrag s0 tr).ordering,
        e1.draggable = true → e2.draggable = true → e1 = e2) ∧
      ((runDrag s0 tr).dragging = none →
        ∀ e ∈ (runDrag s0 tr).ordering, e.draggable = false) := by
  have hinv0 : InvS s0 := by
    refine ⟨?_, h2, ?_⟩
    · intro e he hd
      rw [h0 e he] at hd
      exact Bool.noConfusion hd
    · intro d hd
      rw [h1] at hd
      exact Option.noConfusion hd
  obtain ⟨g1, g2, g3⟩ := runDrag_inv s0 tr hinv0 hwf
  refine ⟨g1, ?_, ?_⟩
  · intro e1 he1 e2 he2 hd1 hd2
    have k1 := g1 e1 he1 hd1
    have k2 := g1 e2 he2 hd2
    rw [k1] at k2
    injection k2 with hkeq
    exact List.inj_on_of_nodup_map g2 he1 he2 hkeq
  · intro hnone e he
    cases hd : e.draggable with
    | false => rfl
    | true =>
      rw [g1 e he hd] at hnone
      exact Option.noConfusion hnone

/-- Witness for C5 (amended) on the two-row store and the admissible trace
begin-drag on 1, drag-enter on 2, drag-end on 1. -/
theorem drag_single_draggable_witness :
    (∀ e ∈ (runDrag ⟨[⟨1, false⟩, ⟨2, false⟩], none⟩
        [DragEvent.beginDrag 1, DragEvent.dragEnter 2, DragEvent.dragEnd 1]).ordering,
        e.draggable = true →
        (runDrag ⟨[⟨1, false⟩, ⟨2, false⟩], none⟩
          [DragEvent.beginDrag 1, DragEvent.dragEnter 2, DragEvent.dragEnd 1]).dragging =
            some e.key) ∧
      (∀ e1 ∈ (runDrag ⟨[⟨1, false⟩, ⟨2, false⟩], none⟩
        [DragEvent.beginDrag 1, DragEvent.dragEnter 2, DragEvent.dragEnd 1]).ordering,
        ∀ e2 ∈ (runDrag ⟨[⟨1, false⟩, ⟨2, false⟩], none⟩
          [DragEvent.beginDrag 1, DragEvent.dragEnter 2, DragEvent.dragEnd 1]).ordering,
        e1.draggable = true → e2.draggable = true → e1 = e2) ∧
      ((runDrag ⟨[⟨1, false⟩, ⟨2, false⟩], none⟩
        [DragEvent.beginDrag 1, DragEvent.dragEnter 2, DragEvent.dragEnd 1]).dragging = none →
        ∀ e ∈ (runDrag ⟨[⟨1, false⟩, ⟨2, false⟩], none⟩
          [DragEvent.beginDrag 1, DragEvent.dragEnter 2, DragEvent.dragEnd 1]).ordering,
          e.draggable = false) :=
  drag_single_draggable ⟨[⟨1, false⟩, ⟨2, false⟩], none⟩
    [DragEvent.beginDrag 1, DragEvent.dragEnter 2, DragEvent.dragEnd 1]
    (by decide) rfl (by decide) (by decide)

/-- Witness for C7 on the store `[{1, false}]` and the absent key `2`. -/
theorem unknown_key_noop_witness :
    setDraggable [⟨1, false⟩] 2 true = [⟨1, false⟩] ∧
      getOrder [⟨1, false⟩] 2 = -1 ∧
      onDragEndH ⟨[⟨1, false⟩], some 2⟩ 2 = ⟨[⟨1, false⟩], none⟩ :=
  unknown_key_noop [⟨1, false⟩] 2 true (some 2) (by decide)

/-- Witness for C10 on a one-row store with no active drag. -/
theorem dragEnter_idle_noop_witness :
    dragStep ⟨[⟨1, false⟩], none⟩ (DragEvent.dragEnter 1) = ⟨[⟨1, false⟩], none⟩ :=
  dragEnter_idle_noop ⟨[⟨1, false⟩], none⟩ 1 rfl

/-- Witness for C8, instantiating the uniform-completion characterization
at the empty list, where it is vacuously true. -/
theorem allStatus_iff_uniform_witness :
    allStatus [] = true ↔ ∀ x ∈ ([] : List Item), ∀ y ∈ ([] : List Item),
      x.status = y.status :=
  allStatus_iff_uniform []
